import Mathlib

/-!
Verification development for the beacon fine-grained reactive signal library.

The repository contains several variant implementations of the same reactive
core (a vue-reactivity backed variant, a signal-polyfill backed variant, and a
hand-rolled push/pull variant re-exported through src/make/index.ts).  The
definitions below are shallow embeddings of the repository source; where the
hand-rolled graph core (graph.ts / computed.ts / effect.ts / watch.ts) is not
part of the source tree, the corresponding definitions are modelled from the
specification, as indicated by their doc comments.
-/

namespace Beacon

/-! ## JavaScript value model

Values as needed to embed defaultEquals from src/src/new/binding.ts.  An
object value is identified by a reference id; Object.is on two object values
is reference identity, and on primitive values it is value identity.  Floating
point NaN and negative zero do not occur in any claim, so numbers are modelled
as integers, for which Object.is coincides with ordinary equality.
-/

inductive JSValue where
  | vnull : JSValue
  | vundefined : JSValue
  | vnum : Int → JSValue
  | vstr : String → JSValue
  | vbool : Bool → JSValue
  | vobj : Nat → JSValue
deriving DecidableEq, Repr

/-- typeof a === 'object' in JavaScript: true for null and for object values. -/
def typeofIsObject : JSValue → Bool
  | JSValue.vnull => true
  | JSValue.vobj _ => true
  | _ => false

/-- Embedding of Object.is restricted to the modelled values: reference
identity on objects, value identity on primitives. -/
def objectIs (a b : JSValue) : Bool := a == b

/-- Embedding of defaultEquals from src/src/new/binding.ts lines 90 to 97:
returns (a === null or typeof a !== 'object') and Object.is(a, b). -/
def defaultEquals (a b : JSValue) : Bool :=
  (a == JSValue.vnull || !typeofIsObject a) && objectIs a b

/-! ## SettableSignalImpl (src/src/make/index.ts)

The producer node of the hand-rolled variant.  The fields mirror the class:
value, valueVersion, and the consumer bookkeeping; calls of
producerNotifyConsumers are made observable through a notifyCount counter so
theorems can speak about whether consumers were notified.
-/

structure SettableSignalImpl (V : Type) where
  value : V
  valueVersion : Nat
  notifyCount : Nat
deriving DecidableEq, Repr

namespace SettableSignalImpl

/-- Embedding of SettableSignalImpl.set: if the equality function does not
hold, update the value, increment valueVersion and notify consumers;
otherwise do nothing. -/
def set {V : Type} (equal : V → V → Bool) (s : SettableSignalImpl V) (newValue : V) :
    SettableSignalImpl V :=
  if equal s.value newValue then s
  else { value := newValue, valueVersion := s.valueVersion + 1,
         notifyCount := s.notifyCount + 1 }

/-- Embedding of SettableSignalImpl.update: this.set(updater(this.value)). -/
def update {V : Type} (equal : V → V → Bool) (s : SettableSignalImpl V) (updater : V → V) :
    SettableSignalImpl V :=
  SettableSignalImpl.set equal s (updater s.value)

/-- Embedding of SettableSignalImpl.mutate: run the mutator on the current
value in place, then unconditionally increment valueVersion and notify
consumers, bypassing the equality check.  In-place mutation is embedded as
replacing the stored value by the mutated one. -/
def mutate {V : Type} (s : SettableSignalImpl V) (mutator : V → V) :
    SettableSignalImpl V :=
  { value := mutator s.value, valueVersion := s.valueVersion + 1,
    notifyCount := s.notifyCount + 1 }

end SettableSignalImpl

/-! ## The polyfill-backed variants of update and mutate

src/src/index.ts line 25 defines signal.update as: updater => updater(state.get()),
and src/src/new/binding.ts lines 168 to 174 define update as
updater => updater(untrack(() => signal.get())) and mutate as
mutator => mutator(untrack(() => signal.get())).  None of these calls
state.set, so the backing state is returned unchanged; the updater result is
discarded.  The backing Signal.State is abstracted to its value and version,
which only a set call can change.
-/

structure PolyfillState (V : Type) where
  value : V
  version : Nat
deriving DecidableEq, Repr

/-- Embedding of Signal.State.set as used by the polyfill variants, with the
equality function of the state (set is a no-op on equal values). -/
def polyfillSet {V : Type} (equal : V → V → Bool) (s : PolyfillState V) (newValue : V) :
    PolyfillState V :=
  if equal s.value newValue then s
  else { value := newValue, version := s.version + 1 }

/-- Embedding of signal.update from src/src/index.ts line 25 and of update
from src/src/new/binding.ts lines 168 to 170: the updater is applied to the
current value and its result is discarded; the backing state is never set. -/
def updatePolyfillVariant {V : Type} (s : PolyfillState V) (updater : V → V) :
    PolyfillState V :=
  let _discarded := updater s.value
  s

/-- Embedding of mutate from src/src/new/binding.ts lines 172 to 174: the
mutator runs on the current value read without tracking, but the backing
Signal.State is never set, so its version never advances and no consumer is
notified.  In this embedding of by-reference data, the heap cell the value
points to is mutated while the signal state stays untouched. -/
def mutatePolyfillVariant {V : Type} (s : PolyfillState V) (mutator : V → V) :
    PolyfillState V :=
  let _mutatedInPlace := mutator s.value
  s

/-! ## Vue-style tracking context and untracked (src/unnamed/part_001 lines 58 to 63)

The vue reactivity tracking flag: pauseTracking pushes the current shouldTrack
flag and clears it, resetTracking pops it back (defaulting to true on an empty
stack).  The untracked wrapper of the source calls pauseTracking, runs the
function, and calls resetTracking after it returns; there is no try/finally,
so when the function throws, resetTracking is never reached and the exception
propagates with tracking still paused.
-/

structure TrackState where
  shouldTrack : Bool
  trackStack : List Bool
deriving DecidableEq, Repr

/-- Embedding of vue pauseTracking: push the current flag, clear it. -/
def pauseTracking (σ : TrackState) : TrackState :=
  { shouldTrack := false, trackStack := σ.shouldTrack :: σ.trackStack }

/-- Embedding of vue resetTracking: pop the saved flag, defaulting to true. -/
def resetTracking (σ : TrackState) : TrackState :=
  match σ.trackStack with
  | [] => { shouldTrack := true, trackStack := [] }
  | b :: rest => { shouldTrack := b, trackStack := rest }

/-- Embedding of untracked from src/unnamed/part_001 lines 58 to 63.  The
wrapped function is represented by its outcome: a value or a thrown error.
On a normal return resetTracking runs; on a throw the exception propagates
before resetTracking is reached. -/
def untracked {E V : Type} (fn : Except E V) (σ : TrackState) :
    Except E V × TrackState :=
  let σ1 := pauseTracking σ
  match fn with
  | Except.ok v => (Except.ok v, resetTracking σ1)
  | Except.error e => (Except.error e, σ1)

/-! ## Scheduler drain loop (src/src/index.ts lines 97 to 105)

processPendingEffects sets needsEnqueue, iterates over the watcher pending
list calling get() on each (which reruns the effect computation and rethrows
any exception the callback throws), and finally calls watcher.watch() to
re-arm the watcher for future notifications.  A pending effect is embedded as
an id together with the outcome of running its callback.  The result records
which effects actually ran, the first propagated error if any, and whether
watcher.watch() was reached (the scheduler re-armed).
-/

structure DrainResult (E : Type) where
  ran : List Nat
  thrown : Option E
  rearmed : Bool
deriving DecidableEq, Repr

/-- Embedding of the loop body of processPendingEffects: run the pending
effects in order; an exception thrown by a callback propagates out of the for
loop immediately, so the remaining pending effects are not attempted and the
final watcher.watch() call is skipped. -/
def drainLoop {E : Type} (acc : List Nat) :
    List (Nat × Except E Unit) → DrainResult E
  | [] => { ran := acc.reverse, thrown := none, rearmed := true }
  | (id, Except.ok _) :: rest => drainLoop (id :: acc) rest
  | (id, Except.error e) :: _rest =>
      { ran := (id :: acc).reverse, thrown := some e, rearmed := false }

/-- Embedding of processPendingEffects applied to the current pending list. -/
def processPendingEffects {E : Type} (pending : List (Nat × Except E Unit)) :
    DrainResult E :=
  drainLoop [] pending

/-! ## The reactive graph core

Modelled from the spec: the hand-rolled computed/graph core (graph.ts,
computed.ts of the variant re-exported by src/src/make/index.ts) is not under
src/; only its re-exports, its Producer interface (with the
checkForChangedValue polling hook implemented by SettableSignalImpl) and its
tests are.  Following section 3 of the spec, each producer carries a value and
a valueVersion, and each edge records the producer version at which the
dependency was last observed (atTrackingVersion), "used to detect staleness
without value comparison".  Following section 4.2, a computed node recomputes
on read exactly when some recorded dependency version differs from the
current one, after first forcing its upstream computed dependencies to
refresh, and its own valueVersion advances only when the recomputed value is
unequal to the cached one under the equality function, which halts further
propagation.  A graph is a list of node definitions in topological order:
computed nodes only depend on lower-indexed nodes.
-/

/-- Definition of one graph node: a settable state node with an initial
value, or a computed node with a static dependency list and a computation
from the dependency values. -/
inductive NodeDef (V : Type) where
  | state : V → NodeDef V
  | comp : List Nat → (List V → V) → NodeDef V

/-- Runtime bookkeeping of one node: the cached value, the producer version,
the dependency versions observed at the last recomputation (none before the
first computation), and an instrumentation counter of how many times the
computation function has run. -/
structure NodeState (V : Type) where
  value : V
  valueVersion : Nat
  seen : Option (List Nat)
  computeCount : Nat
deriving Repr

/-- Placeholder node state used for out-of-range indices. -/
def blankNode {V : Type} [Inhabited V] : NodeState V :=
  { value := default, valueVersion := 0, seen := none, computeCount := 0 }

/-- Initial runtime state of a graph: state nodes hold their initial value at
version 0; computed nodes are uncomputed (their cached value is a never
served placeholder, since a missing seen list forces computation on first
read). -/
def initStates {V : Type} [Inhabited V] (g : List (NodeDef V)) : List (NodeState V) :=
  g.map fun nd =>
    match nd with
    | NodeDef.state v => { value := v, valueVersion := 0, seen := none, computeCount := 0 }
    | NodeDef.comp _ _ => blankNode

/-- Dependency versions of a node as currently recorded in the runtime
state. -/
def depVersions {V : Type} [Inhabited V] (sts : List (NodeState V)) (deps : List Nat) :
    List Nat :=
  deps.map fun j => (sts.getD j blankNode).valueVersion

/-- Dependency values of a node as currently recorded in the runtime state. -/
def depValues {V : Type} [Inhabited V] (sts : List (NodeState V)) (deps : List Nat) :
    List V :=
  deps.map fun j => (sts.getD j blankNode).value

/-- Refresh of one node under the lazy pull protocol: a state node needs no
refresh (checkForChangedValue of SettableSignalImpl is empty); a computed
node first refreshes each dependency, then compares the recorded dependency
versions with the current ones.  If they agree, the cache is served; if not,
the computation runs, the dependency versions are re-recorded, and the value
and valueVersion advance only when the new value is unequal to the cached one
under the equality function.  The fuel argument bounds the recursion depth;
every call site supplies at least the node index plus one, which suffices for
a topologically ordered graph. -/
def refresh {V : Type} [Inhabited V] (g : List (NodeDef V)) (equal : V → V → Bool) :
    Nat → Nat → List (NodeState V) → List (NodeState V)
  | 0, _, sts => sts
  | fuel + 1, i, sts =>
    match g.getD i (NodeDef.state default) with
    | NodeDef.state _ => sts
    | NodeDef.comp deps fn =>
      let sts1 := deps.foldl (fun acc j => refresh g equal fuel j acc) sts
      let vers := depVersions sts1 deps
      let ns := sts1.getD i blankNode
      if ns.seen = some vers then sts1
      else
        let newVal := fn (depValues sts1 deps)
        match ns.seen with
        | none =>
          sts1.set i { value := newVal, valueVersion := ns.valueVersion,
                       seen := some vers, computeCount := ns.computeCount + 1 }
        | some _ =>
          if equal ns.value newVal then
            sts1.set i { value := ns.value, valueVersion := ns.valueVersion,
                         seen := some vers, computeCount := ns.computeCount + 1 }
          else
            sts1.set i { value := newVal, valueVersion := ns.valueVersion + 1,
                         seen := some vers, computeCount := ns.computeCount + 1 }

/-- Read of node i: refresh it (lazily refreshing its transitive
dependencies), then return the updated state and the cached value. -/
def readNode {V : Type} [Inhabited V] (g : List (NodeDef V)) (equal : V → V → Bool)
    (i : Nat) (sts : List (NodeState V)) : List (NodeState V) × V :=
  let sts1 := refresh g equal (i + 1) i sts
  (sts1, (sts1.getD i blankNode).value)

/-- Write to state node i, mirroring SettableSignalImpl.set: a value equal to
the current one under the equality function is a complete no-op; otherwise
the value is stored and the valueVersion advances. -/
def writeNode {V : Type} [Inhabited V] (g : List (NodeDef V)) (equal : V → V → Bool)
    (i : Nat) (x : V) (sts : List (NodeState V)) : List (NodeState V) :=
  match g.getD i (NodeDef.state default) with
  | NodeDef.comp _ _ => sts
  | NodeDef.state _ =>
    let ns := sts.getD i blankNode
    if equal ns.value x then sts
    else sts.set i { value := x, valueVersion := ns.valueVersion + 1,
                     seen := ns.seen, computeCount := ns.computeCount }

/-- Compute count of node i in a runtime state. -/
def computeCountOf {V : Type} [Inhabited V] (sts : List (NodeState V)) (i : Nat) : Nat :=
  (sts.getD i blankNode).computeCount

/-! ## The diamond graph of the glitch-free test

The graph of src/unnamed/part_014 and of testable property 1 of the spec:
node 0 is the state node name, nodes 1 and 2 are the computed nodes first and
last, each reading name, and node 3 is the computed node full reading first
and last. -/

/-- Diamond graph over arbitrary derivation functions f1, f2 for first and
last and combination function g for full. -/
def diamond {V : Type} [Inhabited V] (f1 f2 : V → V) (g : V → V → V) (v0 : V) :
    List (NodeDef V) :=
  [NodeDef.state v0,
   NodeDef.comp [0] (fun vs => f1 (vs.getD 0 default)),
   NodeDef.comp [0] (fun vs => f2 (vs.getD 0 default)),
   NodeDef.comp [1, 2] (fun vs => g (vs.getD 0 default) (vs.getD 1 default))]

/-- Equality function used for ordinary (non-object) values: plain decidable
equality, the behavior of defaultEquals on non-object values. -/
def eqBool {V : Type} [DecidableEq V] (a b : V) : Bool := a = b

instance : Inhabited JSValue := ⟨JSValue.vundefined⟩

/-! ## Effect registration, scheduling and disposal

Modelled from the spec: the Watch/effect core (watch.ts, effect.ts of the
hand-rolled variant) is not under src/; only its re-exports, the testingEffect
helper built on the Watch class, and the effect tests are.  Following
sections 4.4 and 5 of the spec, each producer keeps a consumer set of
registered effect ids; a write notifies the registered effects by enqueuing
them with the scheduler (idempotently); a drain runs every pending effect
once and empties the queue; and disposing an effect synchronously removes it
from every producer's consumer set it is registered in and from the pending
queue if enqueued.
-/

structure EffectsState where
  consumers : List (Nat × List Nat)
  pending : List Nat
  runCounts : List (Nat × Nat)
deriving DecidableEq, Repr

/-- Consumer set of a producer. -/
def consumersOf (s : EffectsState) (p : Nat) : List Nat :=
  ((s.consumers.find? fun pc => pc.1 = p).map fun pc => pc.2).getD []

/-- Number of times the callback of effect e has run. -/
def runCountOf (s : EffectsState) (e : Nat) : Nat :=
  ((s.runCounts.find? fun kv => kv.1 = e).map fun kv => kv.2).getD 0

/-- Idempotent enqueue of the given effects: an already pending effect is not
enqueued a second time. -/
def enqueueAll (pending : List Nat) (es : List Nat) : List Nat :=
  es.foldl (fun pq e => if e ∈ pq then pq else pq ++ [e]) pending

/-- Increment the run count of one effect. -/
def bumpRun (rc : List (Nat × Nat)) (e : Nat) : List (Nat × Nat) :=
  if rc.any fun kv => kv.1 = e then
    rc.map fun kv => if kv.1 = e then (kv.1, kv.2 + 1) else kv
  else rc ++ [(e, 1)]

/-- One scheduler operation: a write to a producer, a drain pass of the
scheduler, or the disposal of an effect. -/
inductive SchedOp where
  | write : Nat → SchedOp
  | drain : SchedOp
  | dispose : Nat → SchedOp

/-- Disposal of an effect, modelled from the spec: remove it from every
producer's consumer set and from the pending queue. -/
def disposeEffect (s : EffectsState) (e : Nat) : EffectsState :=
  { consumers := s.consumers.map fun pc => (pc.1, pc.2.filter fun c => c ≠ e),
    pending := s.pending.filter fun c => c ≠ e,
    runCounts := s.runCounts }

/-- One step of the scheduler state machine.  A write enqueues the producer's
registered consumers; a drain runs every pending effect once (invoking its
callback, counted by runCounts) and empties the queue. -/
def schedStep (s : EffectsState) : SchedOp → EffectsState
  | SchedOp.write p =>
      { s with pending := enqueueAll s.pending (consumersOf s p) }
  | SchedOp.drain =>
      { s with pending := [], runCounts := s.pending.foldl bumpRun s.runCounts }
  | SchedOp.dispose e => disposeEffect s e

/-- Run of a sequence of scheduler operations. -/
def schedRun (s : EffectsState) (ops : List SchedOp) : EffectsState :=
  ops.foldl schedStep s

/-- Absence invariant of a disposed effect: it is in no pending queue and in
no producer's consumer set. -/
def effectAbsent (s : EffectsState) (e : Nat) : Prop :=
  e ∉ s.pending ∧ ∀ pc ∈ s.consumers, e ∉ pc.2

/-! ## Store.add (src/src/store.ts)

The two StoreImpl variants in src/src/store.ts share the same add logic,
which is built on the JavaScript Map: for an array argument the added items
are first deduplicated through a Map keyed by id.toString() (later entries
overwrite earlier ones), the current items array is turned into a Map the
same way, the added entries are inserted into it, and the Map values become
the new array.  The JavaScript Map is embedded as an association list with
insertion-order semantics: setting an existing key overwrites its value in
place, setting a fresh key appends.  An item is any value together with the
idOf function giving its id.toString() string.
-/

/-- Embedding of Map.prototype.set on an insertion-ordered association list:
setting an existing key overwrites its value in place, keeping its position;
setting a fresh key appends the new entry at the end. -/
def mapSet {α : Type} : List (String × α) → String → α → List (String × α)
  | [], k, v => [(k, v)]
  | kv :: rest, k, v =>
      if kv.1 = k then (k, v) :: rest else kv :: mapSet rest k v

/-- Embedding of Map.prototype.get. -/
def mapGet {α : Type} (m : List (String × α)) (k : String) : Option α :=
  (m.find? fun kv => kv.1 = k).map fun kv => kv.2

/-- Map built from a list of items keyed by their ids, the way both branches
of StoreImpl.add build addedItemsMap and currentValuesMap. -/
def mapOfItems {α : Type} (idOf : α → String) (items : List α) :
    List (String × α) :=
  items.foldl (fun m it => mapSet m (idOf it) it) []

/-- Embedding of the array branch of StoreImpl.add: deduplicate the added
items through a Map, turn the current items into a Map, insert the added
entries, and take the values. -/
def storeAddArray {α : Type} (idOf : α → String) (current items : List α) :
    List α :=
  let addedItemsMap := mapOfItems idOf items
  let currentValuesMap := mapOfItems idOf current
  let merged := addedItemsMap.foldl (fun m kv => mapSet m kv.1 kv.2) currentValuesMap
  merged.map fun kv => kv.2

/-- Embedding of the single-item branch of StoreImpl.add. -/
def storeAddSingle {α : Type} (idOf : α → String) (current : List α) (item : α) :
    List α :=
  (mapSet (mapOfItems idOf current) (idOf item) item).map fun kv => kv.2

/-- Last item of a list with the given id, the candidate a Map keyed by ids
retains. -/
def lastWithId {α : Type} (idOf : α → String) (k : String) (l : List α) :
    Option α :=
  l.reverse.find? fun it => idOf it = k

/-! ## The memo getter decorator (src/src/reactive.ts lines 99 to 111)

The decorator body declares a single local variable holding the backing
Signal.Computed and returns a replacement getter that lazily allocates it on
first read, binding the computation to whatever instance that first read
happened on, and thereafter returns the value of that same computed for every
instance.  Since a getter is a pure function of its instance, the cached
computed of a first read on host h0 always yields getter h0.
-/

structure MemoState (H : Type) where
  bound : Option H
  allocCount : Nat
deriving Repr

/-- Fresh decorator state: no computed allocated yet. -/
def memoInit {H : Type} : MemoState H :=
  { bound := none, allocCount := 0 }

/-- Embedding of the replacement getter: computed ??= new Signal.Computed(value.bind(this)),
then computed.get().  On the first read the computed is allocated bound to
the current instance; on every later read, on any instance, the existing
computed is reused. -/
def memoRead {H V : Type} (getter : H → V) (s : MemoState H) (host : H) :
    MemoState H × V :=
  match s.bound with
  | none => ({ bound := some host, allocCount := s.allocCount + 1 }, getter host)
  | some h0 => (s, getter h0)

/-- State after a sequence of getter reads on the given instances. -/
def memoReadAll {H V : Type} (getter : H → V) (s : MemoState H) (hosts : List H) :
    MemoState H :=
  hosts.foldl (fun st h => (memoRead getter st h).1) s

/-! # Theorems -/

/-- Claim C2.  The SettableSignalImpl variant under src/src/make/index.ts does
satisfy the claimed equivalence of update with set after the updater, but the
polyfill-backed variants cited by the claim (src/src/index.ts line 25 and
src/src/new/binding.ts lines 168 to 170) compute the updater result and
discard it without ever calling set: at the failing input of a signal holding
0 and the updater adding 1, the stored value stays 0 and the version does not
advance, whereas set(fn(0)) stores 1 and advances the version, contradicting
the doc comments of those variants and the tests and README that exercise
update. -/
theorem update_variant_divergence :
    (∀ (V : Type) (equal : V → V → Bool) (s : SettableSignalImpl V) (fn : V → V),
        SettableSignalImpl.update equal s fn = SettableSignalImpl.set equal s (fn s.value)) ∧
    updatePolyfillVariant ({ value := 0, version := 0 } : PolyfillState Nat)
        (fun x => x + 1) = { value := 0, version := 0 } ∧
    polyfillSet eqBool ({ value := 0, version := 0 } : PolyfillState Nat)
        ((fun x => x + 1) 0) = { value := 1, version := 1 } :=
  ⟨fun _ _ _ _ => rfl, rfl, by decide⟩

/-- Claim C3.  The SettableSignalImpl variant does bump valueVersion and
notify unconditionally on mutate, but the variant cited from
src/src/new/binding.ts lines 172 to 174 runs the mutator on the current value
without ever setting the backing state: on an array-valued signal holding the
list 1, 2 and a mutator pushing 3, the backing state is returned with its
version unchanged, so no dependent recomputation is triggered, contradicting
the doc comment of that very method. -/
theorem mutate_variant_divergence :
    (∀ (V : Type) (s : SettableSignalImpl V) (fn : V → V),
        (SettableSignalImpl.mutate s fn).valueVersion = s.valueVersion + 1 ∧
        (SettableSignalImpl.mutate s fn).notifyCount = s.notifyCount + 1) ∧
    mutatePolyfillVariant ({ value := [1, 2], version := 0 } : PolyfillState (List Nat))
        (fun l => l ++ [3]) = { value := [1, 2], version := 0 } :=
  ⟨fun _ _ _ => ⟨rfl, rfl⟩, rfl⟩

/-- Claim C4.  The default equality of src/src/new/binding.ts treats every
value of object type as unequal to everything, including itself, and compares
non-object values by identity; consequently a write of the very same object
reference to a signal using the default equality advances the valueVersion
and makes a dependent computed node recompute. -/
theorem defaultEquals_object_always_unequal :
    (∀ (r : Nat) (b : JSValue), defaultEquals (JSValue.vobj r) b = false) ∧
    (∀ a b : JSValue, typeofIsObject a = false → defaultEquals a b = objectIs a b) ∧
    ((writeNode [NodeDef.state (JSValue.vobj 7), NodeDef.comp [0] (fun vs => vs.getD 0 default)]
          defaultEquals 0 (JSValue.vobj 7)
          (readNode [NodeDef.state (JSValue.vobj 7), NodeDef.comp [0] (fun vs => vs.getD 0 default)]
            defaultEquals 1
            (initStates [NodeDef.state (JSValue.vobj 7),
              NodeDef.comp [0] (fun vs => vs.getD 0 default)])).1).getD 0 blankNode).valueVersion
        = 1 ∧
    computeCountOf
        (readNode [NodeDef.state (JSValue.vobj 7), NodeDef.comp [0] (fun vs => vs.getD 0 default)]
          defaultEquals 1
          (writeNode [NodeDef.state (JSValue.vobj 7), NodeDef.comp [0] (fun vs => vs.getD 0 default)]
            defaultEquals 0 (JSValue.vobj 7)
            (readNode [NodeDef.state (JSValue.vobj 7), NodeDef.comp [0] (fun vs => vs.getD 0 default)]
              defaultEquals 1
              (initStates [NodeDef.state (JSValue.vobj 7),
                NodeDef.comp [0] (fun vs => vs.getD 0 default)])).1)).1 1 = 2 := by
  refine ⟨fun r b => rfl, fun a b h => ?_, by decide, by decide⟩
  simp [defaultEquals, h]

/-- Witness for claim C4 at concrete non-object values. -/
theorem defaultEquals_object_always_unequal_witness :
    defaultEquals (JSValue.vnum 3) (JSValue.vnum 3) =
      objectIs (JSValue.vnum 3) (JSValue.vnum 3) :=
  defaultEquals_object_always_unequal.2.1 (JSValue.vnum 3) (JSValue.vnum 3) (by decide)

/-- Claim C5.  Setting a settable signal to a value equal to the current one
under the configured equality function is a complete no-op: the
SettableSignalImpl is returned unchanged (same value, same valueVersion, no
notification), a write to a graph state node leaves the whole graph state
unchanged, and therefore every subsequent read, of any node, returns exactly
what it would have returned before the write, with no recomputation. -/
theorem set_equal_value_noop {V : Type} [Inhabited V] (equal : V → V → Bool) :
    (∀ (s : SettableSignalImpl V) (x : V), equal s.value x = true →
        SettableSignalImpl.set equal s x = s) ∧
    (∀ (g : List (NodeDef V)) (i : Nat) (x : V) (sts : List (NodeState V)),
        equal (sts.getD i blankNode).value x = true →
        writeNode g equal i x sts = sts ∧
        ∀ j, readNode g equal j (writeNode g equal i x sts) = readNode g equal j sts) := by
  constructor
  · intro s x h
    simp [SettableSignalImpl.set, h]
  · intro g i x sts h
    have hw : writeNode g equal i x sts = sts := by
      simp only [writeNode]
      split
      · rfl
      · split
        · rfl
        · rename_i hcond
          exact absurd h hcond
    exact ⟨hw, fun j => by rw [hw]⟩

/-- Witness for claim C5 at a concrete signal and graph. -/
theorem set_equal_value_noop_witness :
    SettableSignalImpl.set eqBool
        ({ value := 4, valueVersion := 0, notifyCount := 0 } : SettableSignalImpl Nat) 4 =
      { value := 4, valueVersion := 0, notifyCount := 0 } ∧
    writeNode [NodeDef.state 4] eqBool 0 4
        (initStates ([NodeDef.state 4] : List (NodeDef Nat))) =
      initStates ([NodeDef.state 4] : List (NodeDef Nat)) :=
  ⟨(set_equal_value_noop eqBool).1 { value := 4, valueVersion := 0, notifyCount := 0 } 4
      (by decide),
   ((set_equal_value_noop eqBool).2 [NodeDef.state 4] 0 4
      (initStates [NodeDef.state 4]) (by decide)).1⟩

/-- Claim C6, counterexample.  The untracked wrapper of the vue-backed
variant (src/unnamed/part_001 lines 58 to 63) calls pauseTracking, runs the
function and calls resetTracking only after a normal return; there is no
try/finally, so when the function throws, the tracking context is not
restored: starting from an actively tracking context, after an untracked call
whose body threw, tracking is left paused. -/
theorem untracked_error_leaves_tracking_paused :
    (untracked (Except.error () : Except Unit Nat)
        { shouldTrack := true, trackStack := [] }).2 ≠
      { shouldTrack := true, trackStack := [] } ∧
    ((untracked (Except.error () : Except Unit Nat)
        { shouldTrack := true, trackStack := [] }).2).shouldTrack = false := by
  decide

/-- Claim C6, amended.  The untracked wrapper restores the previous tracking
context whenever the wrapped function returns normally; when the function
throws, the error propagates unchanged and the tracking context is left
paused rather than restored. -/
theorem untracked_restores_only_on_normal_return {E V : Type} :
    (∀ (v : V) (σ : TrackState), untracked (Except.ok v : Except E V) σ = (Except.ok v, σ)) ∧
    (∀ (e : E) (σ : TrackState),
        untracked (Except.error e : Except E V) σ =
          (Except.error e, pauseTracking σ) ∧
        ((untracked (Except.error e : Except E V) σ).2).shouldTrack = false) :=
  ⟨fun _ _ => rfl, fun _ _ => ⟨rfl, rfl⟩⟩

/-- Helper: a drain over pending effects that all return normally runs every
one of them and re-arms the watcher. -/
theorem drainLoop_all_ok {E : Type} (l : List (Nat × Except E Unit)) :
    ∀ acc : List Nat, (∀ pe ∈ l, pe.2 = Except.ok ()) →
      drainLoop acc l = { ran := acc.reverse ++ l.map fun pe => pe.1,
                          thrown := none, rearmed := true } := by
  induction l with
  | nil => intro acc _; simp [drainLoop]
  | cons pe rest ih =>
    intro acc h
    obtain ⟨id, out⟩ := pe
    have hout : out = Except.ok () := h (id, out) (List.mem_cons_self _ _)
    subst hout
    rw [drainLoop, ih (id :: acc) fun q hq => h q (List.mem_cons_of_mem _ hq)]
    simp

/-- Helper: a drain aborts at the first pending effect whose callback throws;
the effects after it are not attempted and the watcher is not re-armed. -/
theorem drainLoop_abort {E : Type} (pre : List (Nat × Except E Unit)) :
    ∀ (acc : List Nat) (id : Nat) (e : E) (post : List (Nat × Except E Unit)),
      (∀ pe ∈ pre, pe.2 = Except.ok ()) →
      drainLoop acc (pre ++ (id, Except.error e) :: post) =
        { ran := acc.reverse ++ pre.map (fun pe => pe.1) ++ [id],
          thrown := some e, rearmed := false } := by
  induction pre with
  | nil => intro acc id e post _; simp [drainLoop]
  | cons pe rest ih =>
    intro acc id e post h
    obtain ⟨id0, out⟩ := pe
    have hout : out = Except.ok () := h (id0, out) (List.mem_cons_self _ _)
    subst hout
    rw [List.cons_append, drainLoop,
      ih (id0 :: acc) id e post fun q hq => h q (List.mem_cons_of_mem _ hq)]
    simp

/-- Claim C7, counterexample.  The drain loop of processPendingEffects
(src/src/index.ts lines 97 to 105) has no per-effect error isolation: with
two queued effects of which the first throws, the exception propagates out of
the for loop, the second effect is never attempted, and the final
watcher.watch() call that re-arms the scheduler for future writes is
skipped. -/
theorem drain_abort_counterexample :
    processPendingEffects [(0, Except.error ()), (1, (Except.ok () : Except Unit Unit))] =
      { ran := [0], thrown := some (), rearmed := false } ∧
    1 ∉ (processPendingEffects
        [(0, Except.error ()), (1, (Except.ok () : Except Unit Unit))]).ran := by
  decide

/-- Claim C7, amended.  During a drain pass, the queued effects run in order
until the first one whose callback throws: if none throws, every queued
effect runs and the watcher is re-armed; if one throws, the error propagates
(it is not swallowed), the effects queued after it are not attempted in that
pass, and the watcher is not re-armed. -/
theorem drain_runs_until_first_throw {E : Type} :
    (∀ pending : List (Nat × Except E Unit),
        (∀ pe ∈ pending, pe.2 = Except.ok ()) →
        processPendingEffects pending =
          { ran := pending.map fun pe => pe.1, thrown := none, rearmed := true }) ∧
    (∀ (pre post : List (Nat × Except E Unit)) (id : Nat) (e : E),
        (∀ pe ∈ pre, pe.2 = Except.ok ()) →
        processPendingEffects (pre ++ (id, Except.error e) :: post) =
          { ran := pre.map (fun pe => pe.1) ++ [id],
            thrown := some e, rearmed := false }) := by
  constructor
  · intro pending h
    rw [processPendingEffects, drainLoop_all_ok pending [] h]
    simp
  · intro pre post id e h
    rw [processPendingEffects, drainLoop_abort pre [] id e post h]
    simp

/-- Witness for claim C7, amended, at a concrete pending queue. -/
theorem drain_runs_until_first_throw_witness :
    processPendingEffects [(4, (Except.ok () : Except Unit Unit)), (7, Except.ok ())] =
      { ran := [4, 7], thrown := none, rearmed := true } ∧
    processPendingEffects
        [(4, (Except.ok () : Except Unit Unit)), (9, Except.error ()), (7, Except.ok ())] =
      { ran := [4, 9], thrown := some (), rearmed := false } :=
  ⟨(drain_runs_until_first_throw.1 [(4, Except.ok ()), (7, Except.ok ())] (by simp)).trans
      (by simp),
   ((drain_runs_until_first_throw.2 [(4, Except.ok ())] [(7, Except.ok ())] 9 ())
      (by simp)).trans (by simp)⟩

/-- Helper: once the backing computed of the memo decorator is allocated, no
further read changes the decorator state. -/
theorem memoReadAll_bound {H V : Type} (getter : H → V) (hosts : List H) :
    ∀ (s : MemoState H) (h0 : H), s.bound = some h0 → memoReadAll getter s hosts = s := by
  induction hosts with
  | nil => intro s h0 _; rfl
  | cons h rest ih =>
    intro s h0 hb
    rw [memoReadAll, List.foldl_cons, memoRead]
    rw [hb]
    exact ih s h0 hb

/-- Claim C10.  The memo getter decorator shares one backing computed per
decorated getter: the computed is allocated on the first read and bound to
that first instance; a later read on any other instance returns the value of
that same computed (the getter applied to the first instance, not its own),
and across any sequence of reads on any instances at most one computed is
ever allocated. -/
theorem memo_decorator_shares_computed {H V : Type} :
    (∀ (getter : H → V) (h1 h2 : H),
        (memoRead getter memoInit h1).2 = getter h1 ∧
        (memoRead getter (memoRead getter memoInit h1).1 h2).2 = getter h1 ∧
        (memoRead getter (memoRead getter memoInit h1).1 h2).1.bound = some h1) ∧
    (∀ (getter : H → V) (hosts : List H),
        (memoReadAll getter memoInit hosts).allocCount ≤ 1) := by
  constructor
  · intro getter h1 h2
    exact ⟨rfl, rfl, rfl⟩
  · intro getter hosts
    cases hosts with
    | nil => exact Nat.zero_le 1
    | cons h rest =>
      rw [memoReadAll, List.foldl_cons]
      have : (memoRead getter memoInit h).1 = { bound := some h, allocCount := 1 } := rfl
      rw [this]
      have h2 := memoReadAll_bound getter rest { bound := some h, allocCount := 1 } h rfl
      rw [memoReadAll] at h2
      rw [h2]

/-- Claim C1, counterexample.  In the diamond graph where both first and last
read name, a single write of a genuinely new value to name (5 becomes 15)
need not run the computation of full at all: here first and last both derive
the value 5 from either name value, so their versions do not advance and the
subsequent read of full serves the cache, leaving its compute count at 1
instead of the claimed 2.  The served value is still fully consistent with
the new name. -/
theorem diamond_zero_recompute_counterexample :
    (5 : Nat) ≠ 15 ∧
    computeCountOf
        ((readNode (diamond (fun n => n % 10) (fun n => n % 10) (fun a b => a + b) 5) eqBool 3
          (initStates (diamond (fun n => n % 10) (fun n => n % 10) (fun a b => a + b) 5))).1) 3
      = 1 ∧
    computeCountOf
        ((readNode (diamond (fun n => n % 10) (fun n => n % 10) (fun a b => a + b) 5) eqBool 3
          (writeNode (diamond (fun n => n % 10) (fun n => n % 10) (fun a b => a + b) 5) eqBool 0 15
            (readNode (diamond (fun n => n % 10) (fun n => n % 10) (fun a b => a + b) 5) eqBool 3
              (initStates (diamond (fun n => n % 10) (fun n => n % 10) (fun a b => a + b) 5))).1)).1)
        3 ≠ 2 ∧
    (readNode (diamond (fun n => n % 10) (fun n => n % 10) (fun a b => a + b) 5) eqBool 3
        (writeNode (diamond (fun n => n % 10) (fun n => n % 10) (fun a b => a + b) 5) eqBool 0 15
          (readNode (diamond (fun n => n % 10) (fun n => n % 10) (fun a b => a + b) 5) eqBool 3
            (initStates (diamond (fun n => n % 10) (fun n => n % 10) (fun a b => a + b) 5))).1)).2
      = (fun a b => a + b) (15 % 10) (15 % 10) := by
  decide

/-- Claim C1, amended.  For the diamond graph over any first and last
derivations and any combination for full, after the initial read, full has
computed exactly once; after a single write to name and a subsequent read,
full returns the value fully consistent with the new name, and its
computation has run exactly once more precisely when the write changed the
value of first or of last, and not at all when both derived values are
unchanged.  This is the lazy push-then-pull protocol: both paths of the
diamond resolve to the same already-refreshed upstream values, so full never
recomputes twice for one write. -/
theorem diamond_write_read_characterization {V : Type} [DecidableEq V] [Inhabited V]
    (f1 f2 : V → V) (g : V → V → V) (v0 v1 : V) :
    computeCountOf ((readNode (diamond f1 f2 g v0) eqBool 3
        (initStates (diamond f1 f2 g v0))).1) 3 = 1 ∧
    (readNode (diamond f1 f2 g v0) eqBool 3
        (writeNode (diamond f1 f2 g v0) eqBool 0 v1
          (readNode (diamond f1 f2 g v0) eqBool 3 (initStates (diamond f1 f2 g v0))).1)).2
      = g (f1 v1) (f2 v1) ∧
    ((f1 v1 ≠ f1 v0 ∨ f2 v1 ≠ f2 v0) →
      computeCountOf ((readNode (diamond f1 f2 g v0) eqBool 3
          (writeNode (diamond f1 f2 g v0) eqBool 0 v1
            (readNode (diamond f1 f2 g v0) eqBool 3
              (initStates (diamond f1 f2 g v0))).1)).1) 3 = 2) ∧
    (f1 v1 = f1 v0 → f2 v1 = f2 v0 →
      computeCountOf ((readNode (diamond f1 f2 g v0) eqBool 3
          (writeNode (diamond f1 f2 g v0) eqBool 0 v1
            (readNode (diamond f1 f2 g v0) eqBool 3
              (initStates (diamond f1 f2 g v0))).1)).1) 3 = 1) := by
  have hst1 : (readNode (diamond f1 f2 g v0) eqBool 3 (initStates (diamond f1 f2 g v0))).1 =
      [{ value := v0, valueVersion := 0, seen := none, computeCount := 0 },
       { value := f1 v0, valueVersion := 0, seen := some [0], computeCount := 1 },
       { value := f2 v0, valueVersion := 0, seen := some [0], computeCount := 1 },
       { value := g (f1 v0) (f2 v0), valueVersion := 0, seen := some [0, 0],
         computeCount := 1 }] := rfl
  refine ⟨rfl, ?_⟩
  rw [hst1]
  by_cases hv : v0 = v1
  · subst hv
    have hw : writeNode (diamond f1 f2 g v0) eqBool 0 v0
        [{ value := v0, valueVersion := 0, seen := none, computeCount := 0 },
         { value := f1 v0, valueVersion := 0, seen := some [0], computeCount := 1 },
         { value := f2 v0, valueVersion := 0, seen := some [0], computeCount := 1 },
         { value := g (f1 v0) (f2 v0), valueVersion := 0, seen := some [0, 0],
           computeCount := 1 }] =
        [{ value := v0, valueVersion := 0, seen := none, computeCount := 0 },
         { value := f1 v0, valueVersion := 0, seen := some [0], computeCount := 1 },
         { value := f2 v0, valueVersion := 0, seen := some [0], computeCount := 1 },
         { value := g (f1 v0) (f2 v0), valueVersion := 0, seen := some [0, 0],
           computeCount := 1 }] := by
      simp [writeNode, diamond, eqBool, List.getD]
    rw [hw]
    refine ⟨rfl, ?_, fun _ _ => rfl⟩
    rintro (h1 | h2)
    · exact absurd rfl h1
    · exact absurd rfl h2
  · have hw : writeNode (diamond f1 f2 g v0) eqBool 0 v1
        [{ value := v0, valueVersion := 0, seen := none, computeCount := 0 },
         { value := f1 v0, valueVersion := 0, seen := some [0], computeCount := 1 },
         { value := f2 v0, valueVersion := 0, seen := some [0], computeCount := 1 },
         { value := g (f1 v0) (f2 v0), valueVersion := 0, seen := some [0, 0],
           computeCount := 1 }] =
        [{ value := v1, valueVersion := 1, seen := none, computeCount := 0 },
         { value := f1 v0, valueVersion := 0, seen := some [0], computeCount := 1 },
         { value := f2 v0, valueVersion := 0, seen := some [0], computeCount := 1 },
         { value := g (f1 v0) (f2 v0), valueVersion := 0, seen := some [0, 0],
           computeCount := 1 }] := by
      simp only [writeNode, diamond, eqBool, List.getD]
      simp [hv, Ne.symm hv]
    rw [hw]
    by_cases c1 : f1 v0 = f1 v1 <;> by_cases c2 : f2 v0 = f2 v1
    · refine ⟨?_, ?_, fun _ _ => ?_⟩ <;>
        simp [readNode, refresh, diamond, depVersions, depValues, blankNode, eqBool,
          computeCountOf, c1, c2, List.getD]
    · refine ⟨?_, fun _ => ?_, fun e1 e2 => absurd e2.symm c2⟩ <;>
      · simp [readNode, refresh, diamond, depVersions, depValues, blankNode, eqBool,
          computeCountOf, c1, c2, List.getD]
        all_goals (split <;> simp_all)
    · refine ⟨?_, fun _ => ?_, fun e1 e2 => absurd e1.symm c1⟩ <;>
      · simp [readNode, refresh, diamond, depVersions, depValues, blankNode, eqBool,
          computeCountOf, c1, c2, List.getD]
        all_goals (split <;> simp_all)
    · refine ⟨?_, fun _ => ?_, fun e1 e2 => absurd e1.symm c1⟩ <;>
      · simp [readNode, refresh, diamond, depVersions, depValues, blankNode, eqBool,
          computeCountOf, c1, c2, List.getD]
        all_goals (split <;> simp_all)

/-- Witness for claim C1, amended, at the concrete values of the glitch-free
test: name changes from 42 to 57, both derived values change, and full
recomputes exactly once. -/
theorem diamond_write_read_characterization_witness :
    (readNode (diamond (fun n => n / 10) (fun n => n % 10) (fun a b => a * 100 + b) 42) eqBool 3
        (writeNode (diamond (fun n => n / 10) (fun n => n % 10) (fun a b => a * 100 + b) 42)
          eqBool 0 57
          (readNode (diamond (fun n => n / 10) (fun n => n % 10) (fun a b => a * 100 + b) 42)
            eqBool 3
            (initStates
              (diamond (fun n => n / 10) (fun n => n % 10) (fun a b => a * 100 + b) 42))).1)).2
      = 507 ∧
    computeCountOf
        ((readNode (diamond (fun n => n / 10) (fun n => n % 10) (fun a b => a * 100 + b) 42)
          eqBool 3
          (writeNode (diamond (fun n => n / 10) (fun n => n % 10) (fun a b => a * 100 + b) 42)
            eqBool 0 57
            (readNode (diamond (fun n => n / 10) (fun n => n % 10) (fun a b => a * 100 + b) 42)
              eqBool 3
              (initStates
                (diamond (fun n => n / 10) (fun n => n % 10) (fun a b => a * 100 + b) 42))).1)).1)
        3 = 2 :=
  ⟨((diamond_write_read_characterization (fun n => n / 10) (fun n => n % 10)
      (fun a b => a * 100 + b) 42 57).2.1).trans (by decide),
   (diamond_write_read_characterization (fun n => n / 10) (fun n => n % 10)
      (fun a b => a * 100 + b) 42 57).2.2.1 (Or.inl (by decide))⟩

/-- Helper: bumping the entries keyed by a different effect does not change
which entry of e is found. -/
theorem find?_map_bumpEntry (a e : Nat) (h : a ≠ e) (rest : List (Nat × Nat)) :
    ((rest.map fun kv => if kv.1 = a then (kv.1, kv.2 + 1) else kv).find?
        fun kv => kv.1 = e) =
      rest.find? fun kv => kv.1 = e := by
  induction rest with
  | nil => rfl
  | cons kv rest ih =>
    by_cases hq : kv.1 = e
    · have he : ¬e = a := fun hh => h hh.symm
      simp [List.find?, hq, he]
    · by_cases hk : kv.1 = a <;> simp [List.find?, hq, hk, ih, h]

/-- Helper: bumping the run count of a different effect does not change the
run count entry of e. -/
theorem find?_bumpRun_ne (rc : List (Nat × Nat)) (a e : Nat) (h : a ≠ e) :
    ((bumpRun rc a).find? fun kv => kv.1 = e) = rc.find? fun kv => kv.1 = e := by
  rw [bumpRun]
  split
  · exact find?_map_bumpEntry a e h rc
  · rw [List.find?_append]
    have h1 : ([(a, 1)].find? fun kv => kv.1 = e) = none := by simp [h]
    rw [h1]
    cases rc.find? fun kv => kv.1 = e <;> rfl

/-- Helper: a drain over a pending queue not containing e leaves the run
count entry of e untouched. -/
theorem find?_foldl_bumpRun (pending : List Nat) (e : Nat) :
    ∀ rc : List (Nat × Nat), (∀ a ∈ pending, a ≠ e) →
      ((pending.foldl bumpRun rc).find? fun kv => kv.1 = e) =
        rc.find? fun kv => kv.1 = e := by
  induction pending with
  | nil => intro rc _; rfl
  | cons a rest ih =>
    intro rc h
    rw [List.foldl_cons, ih (bumpRun rc a) fun b hb => h b (List.mem_cons_of_mem _ hb),
      find?_bumpRun_ne rc a e (h a (List.mem_cons_self _ _))]

/-- Helper: idempotent enqueue never introduces an effect absent from both
the queue and the notified consumer list. -/
theorem enqueueAll_not_mem (es : List Nat) (e : Nat) :
    ∀ pq : List Nat, e ∉ pq → e ∉ es → e ∉ enqueueAll pq es := by
  induction es with
  | nil => intro pq h _; exact h
  | cons a rest ih =>
    intro pq hpq hes
    have ha : a ≠ e := fun he => hes (he ▸ List.mem_cons_self _ _)
    have hrest : e ∉ rest := fun hr => hes (List.mem_cons_of_mem _ hr)
    rw [enqueueAll, List.foldl_cons]
    refine ih _ ?_ hrest
    split
    · exact hpq
    · intro hmem
      rcases List.mem_append.mp hmem with hl | hr
      · exact hpq hl
      · exact ha (List.mem_singleton.mp hr).symm

/-- Helper: a disposed effect is absent from the pending queue and from every
consumer set. -/
theorem effectAbsent_dispose (s : EffectsState) (e : Nat) :
    effectAbsent (disposeEffect s e) e := by
  constructor
  · intro hmem
    rcases List.mem_filter.mp hmem with ⟨_, hdec⟩
    simp at hdec
  · intro pc hpc
    rcases List.mem_map.mp hpc with ⟨pc0, _, rfl⟩
    intro hmem
    rcases List.mem_filter.mp hmem with ⟨_, hdec⟩
    simp at hdec

/-- Helper: absence of an effect is preserved by every scheduler operation,
and while absent its callback never runs. -/
theorem effectAbsent_step (s : EffectsState) (e : Nat) (op : SchedOp)
    (h : effectAbsent s e) :
    effectAbsent (schedStep s op) e ∧ runCountOf (schedStep s op) e = runCountOf s e := by
  obtain ⟨hp, hc⟩ := h
  cases op with
  | write p =>
    refine ⟨⟨?_, hc⟩, rfl⟩
    have hcons : e ∉ consumersOf s p := by
      rw [consumersOf]
      cases hf : s.consumers.find? fun pc => pc.1 = p with
      | none => simp
      | some pc =>
        simpa using hc pc (List.mem_of_find?_eq_some hf)
    exact enqueueAll_not_mem (consumersOf s p) e s.pending hp hcons
  | drain =>
    refine ⟨⟨List.not_mem_nil e, hc⟩, ?_⟩
    have hne : ∀ a ∈ s.pending, a ≠ e := fun a ha he => hp (he ▸ ha)
    simp only [schedStep, runCountOf]
    rw [find?_foldl_bumpRun s.pending e s.runCounts hne]
  | dispose i =>
    refine ⟨⟨?_, ?_⟩, rfl⟩
    · intro hmem
      exact hp (List.mem_of_mem_filter hmem)
    · intro pc hpc
      rcases List.mem_map.mp hpc with ⟨pc0, hpc0, rfl⟩
      intro hmem
      exact hc pc0 hpc0 (List.mem_of_mem_filter hmem)

/-- Helper: absence of an effect is preserved by every sequence of scheduler
operations, and its run count never changes. -/
theorem effectAbsent_run (e : Nat) (ops : List SchedOp) :
    ∀ s : EffectsState, effectAbsent s e →
      effectAbsent (schedRun s ops) e ∧ runCountOf (schedRun s ops) e = runCountOf s e := by
  induction ops with
  | nil => intro s h; exact ⟨h, rfl⟩
  | cons op rest ih =>
    intro s h
    obtain ⟨h1, h2⟩ := effectAbsent_step s e op h
    obtain ⟨h3, h4⟩ := ih (schedStep s op) h1
    exact ⟨h3, h4.trans h2⟩

/-- Claim C8.  Disposing an effect synchronously removes it from every
producer's consumer set and from the pending queue if enqueued, and after the
disposal no sequence of writes, drains and further disposals ever invokes the
effect's callback again: its run count stays exactly what it was at disposal
time. -/
theorem effect_dispose_never_runs_again (s : EffectsState) (e : Nat) (ops : List SchedOp) :
    e ∉ (disposeEffect s e).pending ∧
    (∀ pc ∈ (disposeEffect s e).consumers, e ∉ pc.2) ∧
    runCountOf (schedRun (disposeEffect s e) ops) e = runCountOf s e := by
  obtain ⟨h1, h2⟩ := effectAbsent_dispose s e
  refine ⟨h1, h2, ?_⟩
  exact (effectAbsent_run e ops (disposeEffect s e) ⟨h1, h2⟩).2

/-- Witness for claim C8 at a concrete scheduler state: one producer with the
disposed effect 1 and another effect 2 registered; a write and a drain after
the disposal run effect 2 but never effect 1. -/
theorem effect_dispose_never_runs_again_witness :
    1 ∉ (disposeEffect { consumers := [(0, [1, 2])], pending := [1], runCounts := [(1, 1), (2, 1)] } 1).pending ∧
    runCountOf
        (schedRun
          (disposeEffect { consumers := [(0, [1, 2])], pending := [1], runCounts := [(1, 1), (2, 1)] } 1)
          [SchedOp.write 0, SchedOp.drain]) 1 =
      runCountOf { consumers := [(0, [1, 2])], pending := [1], runCounts := [(1, 1), (2, 1)] } 1 :=
  ⟨(effect_dispose_never_runs_again
      { consumers := [(0, [1, 2])], pending := [1], runCounts := [(1, 1), (2, 1)] } 1
      [SchedOp.write 0, SchedOp.drain]).1,
   (effect_dispose_never_runs_again
      { consumers := [(0, [1, 2])], pending := [1], runCounts := [(1, 1), (2, 1)] } 1
      [SchedOp.write 0, SchedOp.drain]).2.2⟩

/-- Helper: setting a key in the Map makes that key map to the new value. -/
theorem mapGet_mapSet_self {α : Type} (m : List (String × α)) (k : String) (v : α) :
    mapGet (mapSet m k v) k = some v := by
  induction m with
  | nil => simp [mapSet, mapGet, List.find?]
  | cons kv rest ih =>
    by_cases hk : kv.1 = k
    · simp [mapSet, mapGet, List.find?, hk]
    · simp only [mapSet, hk, if_false]
      simpa [mapGet, List.find?, hk] using ih

/-- Helper: setting a key in the Map leaves every other key unchanged. -/
theorem mapGet_mapSet_other {α : Type} (m : List (String × α)) (k k2 : String) (v : α)
    (h : k2 ≠ k) :
    mapGet (mapSet m k v) k2 = mapGet m k2 := by
  induction m with
  | nil => simp [mapSet, mapGet, List.find?, Ne.symm h]
  | cons kv rest ih =>
    by_cases hk : kv.1 = k
    · have hk2 : ¬kv.1 = k2 := by rw [hk]; exact Ne.symm h
      simp [mapSet, mapGet, List.find?, hk, Ne.symm h, hk2]
    · by_cases hq : kv.1 = k2
      · simp only [mapSet, hk, if_false]
        simp [mapGet, List.find?, hq]
      · simp only [mapSet, hk, if_false]
        simpa [mapGet, List.find?, hq] using ih

/-- Helper: a key of the Map after a set is the set key or an old key. -/
theorem keys_mapSet_subset {α : Type} (m : List (String × α)) (k : String) (v : α)
    (x : String) (hx : x ∈ (mapSet m k v).map fun kv => kv.1) :
    x = k ∨ x ∈ m.map fun kv => kv.1 := by
  induction m with
  | nil =>
    simp [mapSet] at hx
    exact Or.inl hx
  | cons kv rest ih =>
    by_cases hk : kv.1 = k
    · simp only [mapSet, hk, if_true, List.map_cons, List.mem_cons] at hx
      rcases hx with hx | hx
      · exact Or.inl hx
      · exact Or.inr (List.mem_cons_of_mem _ hx)
    · simp only [mapSet, hk, if_false, List.map_cons, List.mem_cons] at hx
      rcases hx with hx | hx
      · exact Or.inr (hx ▸ List.mem_cons_self _ _)
      · rcases ih hx with hx2 | hx2
        · exact Or.inl hx2
        · exact Or.inr (List.mem_cons_of_mem _ hx2)

/-- Helper: the Map keeps its keys pairwise distinct under set. -/
theorem nodupKeys_mapSet {α : Type} (m : List (String × α)) (k : String) (v : α)
    (h : (m.map fun kv => kv.1).Nodup) :
    ((mapSet m k v).map fun kv => kv.1).Nodup := by
  induction m with
  | nil => simp [mapSet]
  | cons kv rest ih =>
    rw [List.map_cons, List.nodup_cons] at h
    by_cases hk : kv.1 = k
    · simp only [mapSet, hk, if_true, List.map_cons, List.nodup_cons]
      exact ⟨hk ▸ h.1, h.2⟩
    · simp only [mapSet, hk, if_false, List.map_cons, List.nodup_cons]
      refine ⟨fun hmem => ?_, ih h.2⟩
      rcases keys_mapSet_subset rest k v kv.1 hmem with h1 | h1
      · exact hk h1
      · exact h.1 h1

/-- Helper: every Map entry built by keying values with idOf maps the id of
its value. -/
theorem coh_mapSet {α : Type} (idOf : α → String) (m : List (String × α)) (k : String)
    (v : α) (hm : ∀ kv ∈ m, idOf kv.2 = kv.1) (hv : idOf v = k) :
    ∀ kv ∈ mapSet m k v, idOf kv.2 = kv.1 := by
  induction m with
  | nil =>
    intro kv hkv
    simp only [mapSet, List.mem_singleton] at hkv
    subst hkv
    exact hv
  | cons kv0 rest ih =>
    intro kv hkv
    by_cases hk : kv0.1 = k
    · simp only [mapSet, hk, if_true, List.mem_cons] at hkv
      rcases hkv with hkv | hkv
      · rw [hkv]; exact hv
      · exact hm kv (List.mem_cons_of_mem _ hkv)
    · simp only [mapSet, hk, if_false, List.mem_cons] at hkv
      rcases hkv with hkv | hkv
      · exact hkv ▸ hm kv0 (List.mem_cons_self _ _)
      · exact ih (fun q hq => hm q (List.mem_cons_of_mem _ hq)) kv hkv

/-- Helper: looking up a key after folding items into the Map finds the last
item with that id, or falls back to the initial Map. -/
theorem mapGet_foldl_items {α : Type} (idOf : α → String) (items : List α) :
    ∀ (m0 : List (String × α)) (k : String),
      mapGet (items.foldl (fun m it => mapSet m (idOf it) it) m0) k =
        (lastWithId idOf k items).or (mapGet m0 k) := by
  induction items with
  | nil => intro m0 k; simp [lastWithId]
  | cons it rest ih =>
    intro m0 k
    rw [List.foldl_cons, ih (mapSet m0 (idOf it) it) k]
    have hlast : lastWithId idOf k (it :: rest) =
        (lastWithId idOf k rest).or (if idOf it = k then some it else none) := by
      rw [lastWithId, lastWithId, List.reverse_cons, List.find?_append]
      congr 1
      simp [List.find?]
      split <;> simp_all
    rw [hlast]
    by_cases hit : idOf it = k
    · rw [hit, mapGet_mapSet_self]
      cases lastWithId idOf k rest <;> simp [hit]
    · rw [mapGet_mapSet_other m0 (idOf it) k it (Ne.symm hit)]
      cases lastWithId idOf k rest <;> simp [hit]

/-- Helper: looking up an id in the deduplication Map of an item list finds
exactly the last item with that id. -/
theorem mapGet_mapOfItems {α : Type} (idOf : α → String) (items : List α) (k : String) :
    mapGet (mapOfItems idOf items) k = lastWithId idOf k items := by
  rw [mapOfItems, mapGet_foldl_items idOf items [] k]
  have : mapGet ([] : List (String × α)) k = none := rfl
  rw [this, Option.or_none]

/-- Helper: the deduplication Map of an item list is coherent: each entry
holds an item whose id is its key. -/
theorem coh_mapOfItems {α : Type} (idOf : α → String) (items : List α) :
    ∀ kv ∈ mapOfItems idOf items, idOf kv.2 = kv.1 := by
  rw [mapOfItems]
  have h : ∀ (m0 : List (String × α)), (∀ kv ∈ m0, idOf kv.2 = kv.1) →
      ∀ kv ∈ items.foldl (fun m it => mapSet m (idOf it) it) m0, idOf kv.2 = kv.1 := by
    induction items with
    | nil => intro m0 hm0; exact hm0
    | cons it rest ih =>
      intro m0 hm0
      rw [List.foldl_cons]
      exact ih (mapSet m0 (idOf it) it) (coh_mapSet idOf m0 (idOf it) it hm0 rfl)
  exact h [] (by intro kv hkv; simp at hkv)

/-- Helper: the deduplication Map of an item list has pairwise distinct
keys. -/
theorem nodupKeys_mapOfItems {α : Type} (idOf : α → String) (items : List α) :
    ((mapOfItems idOf items).map fun kv => kv.1).Nodup := by
  rw [mapOfItems]
  have h : ∀ (m0 : List (String × α)), (m0.map fun kv => kv.1).Nodup →
      ((items.foldl (fun m it => mapSet m (idOf it) it) m0).map fun kv => kv.1).Nodup := by
    induction items with
    | nil => intro m0 hm0; exact hm0
    | cons it rest ih =>
      intro m0 hm0
      rw [List.foldl_cons]
      exact ih (mapSet m0 (idOf it) it) (nodupKeys_mapSet m0 (idOf it) it hm0)
  exact h [] (by simp)

/-- Helper: folding the entries of a Map with distinct keys into another Map
makes lookups prefer the folded entries. -/
theorem mapGet_foldl_entries {α : Type} (es : List (String × α)) :
    ∀ (m0 : List (String × α)) (k : String), ((es.map fun kv => kv.1).Nodup) →
      mapGet (es.foldl (fun m kv => mapSet m kv.1 kv.2) m0) k =
        (mapGet es k).or (mapGet m0 k) := by
  induction es with
  | nil => intro m0 k _; rfl
  | cons kv rest ih =>
    intro m0 k hnd
    rw [List.map_cons, List.nodup_cons] at hnd
    rw [List.foldl_cons, ih (mapSet m0 kv.1 kv.2) k hnd.2]
    by_cases hk : kv.1 = k
    · have hrest : mapGet rest k = none := by
        rw [mapGet, List.find?_eq_none.mpr]
        · rfl
        · intro q hq
          simp only [decide_eq_true_eq]
          intro hqk
          exact hnd.1 (hk ▸ hqk ▸ List.mem_map_of_mem (fun kv => kv.1) hq)
      rw [hrest, hk, mapGet_mapSet_self]
      have hhead : mapGet (kv :: rest) k = some kv.2 := by
        simp [mapGet, List.find?, hk]
      rw [hhead]
      rfl
    · rw [mapGet_mapSet_other m0 kv.1 k kv.2 (Ne.symm hk)]
      have hhead : mapGet (kv :: rest) k = mapGet rest k := by
        simp [mapGet, List.find?, hk]
      rw [hhead]

/-- Helper: coherence is preserved by folding coherent entries into a
coherent Map. -/
theorem coh_foldl_entries {α : Type} (idOf : α → String) (es : List (String × α)) :
    ∀ (m0 : List (String × α)), (∀ kv ∈ m0, idOf kv.2 = kv.1) →
      (∀ kv ∈ es, idOf kv.2 = kv.1) →
      ∀ kv ∈ es.foldl (fun m kv => mapSet m kv.1 kv.2) m0, idOf kv.2 = kv.1 := by
  induction es with
  | nil => intro m0 hm0 _; exact hm0
  | cons kv0 rest ih =>
    intro m0 hm0 hes
    rw [List.foldl_cons]
    exact ih (mapSet m0 kv0.1 kv0.2)
      (coh_mapSet idOf m0 kv0.1 kv0.2 hm0 (hes kv0 (List.mem_cons_self _ _)))
      fun q hq => hes q (List.mem_cons_of_mem _ hq)

/-- Helper: key distinctness is preserved by folding entries into a Map. -/
theorem nodupKeys_foldl_entries {α : Type} (es : List (String × α)) :
    ∀ m0 : List (String × α), ((m0.map fun kv => kv.1).Nodup) →
      ((es.foldl (fun m kv => mapSet m kv.1 kv.2) m0).map fun kv => kv.1).Nodup := by
  induction es with
  | nil => intro m0 hm0; exact hm0
  | cons kv rest ih =>
    intro m0 hm0
    rw [List.foldl_cons]
    exact ih (mapSet m0 kv.1 kv.2) (nodupKeys_mapSet m0 kv.1 kv.2 hm0)

/-- Helper: in a coherent Map with distinct keys, filtering the values by an
id yields exactly the value stored under that key. -/
theorem filter_values_mapGet {α : Type} (idOf : α → String) (m : List (String × α))
    (coh : ∀ kv ∈ m, idOf kv.2 = kv.1) (hnd : (m.map fun kv => kv.1).Nodup)
    (k : String) :
    ((m.map fun kv => kv.2).filter fun x => idOf x = k) = (mapGet m k).toList := by
  induction m with
  | nil => rfl
  | cons kv rest ih =>
    rw [List.map_cons, List.nodup_cons] at hnd
    have hcoh : idOf kv.2 = kv.1 := coh kv (List.mem_cons_self _ _)
    have hcohr : ∀ q ∈ rest, idOf q.2 = q.1 := fun q hq => coh q (List.mem_cons_of_mem _ hq)
    by_cases hk : kv.1 = k
    · have hrest : ((rest.map fun kv => kv.2).filter fun x => idOf x = k) = [] := by
        rw [List.filter_eq_nil_iff]
        intro x hx
        rcases List.mem_map.mp hx with ⟨q, hq, rfl⟩
        simp only [decide_eq_true_eq]
        rw [hcohr q hq]
        intro hqk
        exact hnd.1 (hk ▸ hqk ▸ List.mem_map_of_mem (fun kv => kv.1) hq)
      have hget : mapGet (kv :: rest) k = some kv.2 := by
        simp [mapGet, List.find?, hk]
      rw [List.map_cons, List.filter_cons, hget]
      have : (decide (idOf kv.2 = k)) = true := by rw [hcoh, hk]; simp
      rw [this]
      simp only [if_true]
      rw [hrest]
      rfl
    · have hget : mapGet (kv :: rest) k = mapGet rest k := by
        simp [mapGet, List.find?, hk]
      rw [List.map_cons, List.filter_cons, hget]
      have : (decide (idOf kv.2 = k)) = false := by
        rw [hcoh]
        simpa using hk
      rw [this]
      simp only [Bool.false_eq_true, if_false]
      exact ih hcohr hnd.2

/-- Helper: in a coherent Map, the ids of the values are exactly the keys. -/
theorem map_idOf_values {α : Type} (idOf : α → String) (m : List (String × α))
    (coh : ∀ kv ∈ m, idOf kv.2 = kv.1) :
    ((m.map fun kv => kv.2).map idOf) = m.map fun kv => kv.1 := by
  rw [List.map_map]
  exact List.map_congr_left coh

/-- Claim C9.  Store.add keeps the ids of the stored items pairwise distinct
in both its branches; a single added item replaces any current item with its
id, ending as the unique item with that id in the result; and for the array
branch, the unique item with a given id in the result is the last added item
with that id when the input array contains one (later duplicates win), and
otherwise the last current item with that id. -/
theorem store_add_keeps_ids_unique {α : Type} (idOf : α → String) :
    (∀ current items : List α, ((storeAddArray idOf current items).map idOf).Nodup) ∧
    (∀ (current : List α) (item : α),
        ((storeAddSingle idOf current item).map idOf).Nodup) ∧
    (∀ (current : List α) (item : α),
        ((storeAddSingle idOf current item).filter fun x => idOf x = idOf item) = [item]) ∧
    (∀ (current items : List α) (k : String),
        ((storeAddArray idOf current items).filter fun x => idOf x = k) =
          ((lastWithId idOf k items).or (lastWithId idOf k current)).toList) := by
  have cohMerged : ∀ current items : List α,
      ∀ kv ∈ (mapOfItems idOf items).foldl (fun m kv => mapSet m kv.1 kv.2)
        (mapOfItems idOf current), idOf kv.2 = kv.1 :=
    fun current items =>
      coh_foldl_entries idOf (mapOfItems idOf items) (mapOfItems idOf current)
        (coh_mapOfItems idOf current) (coh_mapOfItems idOf items)
  have ndMerged : ∀ current items : List α,
      (((mapOfItems idOf items).foldl (fun m kv => mapSet m kv.1 kv.2)
        (mapOfItems idOf current)).map fun kv => kv.1).Nodup :=
    fun current items =>
      nodupKeys_foldl_entries (mapOfItems idOf items) (mapOfItems idOf current)
        (nodupKeys_mapOfItems idOf current)
  refine ⟨fun current items => ?_, fun current item => ?_, fun current item => ?_,
    fun current items k => ?_⟩
  · rw [storeAddArray, map_idOf_values idOf _ (cohMerged current items)]
    exact ndMerged current items
  · rw [storeAddSingle, map_idOf_values idOf _
      (coh_mapSet idOf (mapOfItems idOf current) (idOf item) item
        (coh_mapOfItems idOf current) rfl)]
    exact nodupKeys_mapSet _ (idOf item) item (nodupKeys_mapOfItems idOf current)
  · rw [storeAddSingle, filter_values_mapGet idOf _
      (coh_mapSet idOf (mapOfItems idOf current) (idOf item) item
        (coh_mapOfItems idOf current) rfl)
      (nodupKeys_mapSet _ (idOf item) item (nodupKeys_mapOfItems idOf current)),
      mapGet_mapSet_self]
    rfl
  · rw [storeAddArray, filter_values_mapGet idOf _ (cohMerged current items)
      (ndMerged current items),
      mapGet_foldl_entries (mapOfItems idOf items) (mapOfItems idOf current) k
        (nodupKeys_mapOfItems idOf items),
      mapGet_mapOfItems, mapGet_mapOfItems]

end Beacon
